import Mathlib

/-!
Verification of the summa-solvency core against its specification.

Source files embedded:
* `src/merkle_sum_tree/utils/proof_verification.rs` (`verify_proof`)
* `backend/src/apis/round.rs` (`Snapshot`, `Round`, KZG inclusion proofs)

Conventions of the embedding:
* The BN254 scalar field `Fr` (used for balances, hashes, evaluation points;
  `grumpkin::Fq` in the source is the same prime) is `Fp := ZMod rBN`.
* The BN254 base field (affine point coordinates) is `Fq := ZMod qBN`.
* A Rust panic (`unwrap` on `None`/`Err`, out-of-bounds index, failed
  `assert!`) is modelled by `Option.none`; a normal return by `some`.
* Code of the repository that is not under `src/` (the Poseidon hashers,
  the KZG primitives, `generate_setup_artifacts`) is modelled from the
  spec, as abstract function parameters or definitions whose doc comment
  says so.
-/

/-- Modulus of the BN254 scalar field `Fr` (equal to `grumpkin::Fq`). -/
def rBN : ℕ := 21888242871839275222246405745257275088548364400416034343698204186575808495617

/-- Modulus of the BN254 base field (coordinates of `G1Affine` points). -/
def qBN : ℕ := 21888242871839275222246405745257275088696311157297823662689037894645226208583

/-- The scalar field of the proof system. -/
abbrev Fp : Type := ZMod rBN

/-- The base field, in which affine curve-point coordinates live. -/
abbrev Fq : Type := ZMod qBN

/-- FieldEncoding of an arbitrary-precision non-negative integer into the
scalar field: `big_int_to_fp` in the merkle_sum_tree crate. -/
def big_int_to_fp (n : ℕ) : Fp := (n : Fp)

/-- FieldEncoding used by the backend: `big_uint_to_fp`. Same reduction. -/
def big_uint_to_fp (n : ℕ) : Fp := (n : Fp)

/-- A Merkle sum tree node: hash plus aggregate balance
(`merkle_sum_tree::Node`). -/
structure Node where
  hash : Fp
  balance : Fp
deriving DecidableEq, Repr

/-- The entry carried inside a Merkle proof: identity plus one balance,
both arbitrary-precision non-negative integers. -/
structure MEntry where
  identity : ℕ
  balance : ℕ
deriving DecidableEq, Repr

/-- A Merkle inclusion proof (`merkle_sum_tree::MerkleProof`):
entry, root hash, sibling hashes, sibling balances, path indicators. -/
structure MerkleProof where
  entry : MEntry
  root_hash : Fp
  sibling_hashes : List Fp
  sibling_sums : List Fp
  path_indices : List Fp
deriving DecidableEq, Repr

/-- Modelled from the spec: the external leaf computation
`Entry::compute_leaf` (outside `src/`). The spec says a leaf's hash is a
deterministic function of the entry's identity and balance (both
field-encoded) and its balance is the FieldEncoding of the entry's
balance; the hash function itself is the abstract parameter `hashLeaf`. -/
def compute_leaf (hashLeaf : Fp → Fp → Fp) (e : MEntry) : Node :=
  { hash := hashLeaf (big_int_to_fp e.identity) (big_int_to_fp e.balance)
    balance := big_int_to_fp e.balance }

/-- Modelled from the spec: the external `create_middle_node` (outside
`src/`). The spec says an internal node's balance is
`left.balance + right.balance` and its hash is a deterministic function of
(left hash, right hash, combined balance); the hash function itself is the
abstract parameter `hashMid`. -/
def create_middle_node (hashMid : Fp → Fp → Fp → Fp) (l r : Node) : Node :=
  { hash := hashMid l.hash r.hash (l.balance + r.balance)
    balance := l.balance + r.balance }

/-- The `for i in 0..proof.sibling_hashes.len()` loop of `verify_proof`,
walking the three sequences in lockstep. The source indexes
`sibling_sums[i]` and `path_indices[i]` without a bounds check, so a
missing element is an out-of-bounds panic, modelled as `none`. -/
def verify_levels (hashMid : Fp → Fp → Fp → Fp) :
    List Fp → List Fp → List Fp → Node → Fp → Option (Node × Fp)
  | [], _, _, node, balance => some (node, balance)
  | _ :: _, [], _, _, _ => none
  | _ :: _, _ :: _, [], _, _ => none
  | sh :: shs, ss :: sss, pidx :: pidxs, node, balance =>
      let sibling_node : Node := { hash := sh, balance := ss }
      let node' := if pidx = 0 then create_middle_node hashMid node sibling_node
                   else create_middle_node hashMid sibling_node node
      verify_levels hashMid shs sss pidxs node' (balance + sibling_node.balance)

/-- Embedding of `verify_proof` (proof_verification.rs, lines 7-27),
parameterized by the two external Poseidon hashers. `none` models a panic;
`some b` models the source returning the Bool `b =
(proof.root_hash == node.hash && balance == node.balance)`. -/
def verify_proof (hashLeaf : Fp → Fp → Fp) (hashMid : Fp → Fp → Fp → Fp)
    (proof : MerkleProof) : Option Bool :=
  (verify_levels hashMid proof.sibling_hashes proof.sibling_sums proof.path_indices
      (compute_leaf hashLeaf proof.entry) (big_int_to_fp proof.entry.balance)).map
    fun r => (proof.root_hash == r.1.hash) && (r.2 == r.1.balance)

/-- Folding a leaf node up a path of levels `(siblingHash, siblingSum,
pathIndex)`: the spec-side description of the node recomputation performed
by `verify_proof`. The proven node is placed on the left exactly when the
path indicator is `0`. -/
def fold_path (hashMid : Fp → Fp → Fp → Fp) :
    List (Fp × Fp × Fp) → Node → Node
  | [], node => node
  | (sh, ss, pidx) :: rest, node =>
      fold_path hashMid rest
        (if pidx = 0 then create_middle_node hashMid node { hash := sh, balance := ss }
         else create_middle_node hashMid { hash := sh, balance := ss } node)

/-- Zip the three proof sequences into a single list of levels. -/
def zip3 : List Fp → List Fp → List Fp → List (Fp × Fp × Fp)
  | a :: xs, b :: ys, c :: zs => (a, b, c) :: zip3 xs ys zs
  | _, _, _ => []

lemma verify_levels_eq_fold (hashMid : Fp → Fp → Fp → Fp) :
    ∀ (shs sss pidxs : List Fp) (node : Node) (balance : Fp),
      sss.length = shs.length → pidxs.length = shs.length →
      verify_levels hashMid shs sss pidxs node balance =
        some (fold_path hashMid (zip3 shs sss pidxs) node, balance + sss.sum) := by
  intro shs
  induction shs with
  | nil =>
      intro sss pidxs node balance h1 h2
      rw [List.length_nil, List.length_eq_zero] at h1 h2
      subst h1; subst h2
      simp [verify_levels, zip3, fold_path]
  | cons sh shs ih =>
      intro sss pidxs node balance h1 h2
      cases sss with
      | nil => simp at h1
      | cons ss sss =>
        cases pidxs with
        | nil => simp at h2
        | cons pidx pidxs =>
          simp only [List.length_cons, Nat.succ.injEq] at h1 h2
          simp only [verify_levels, zip3, fold_path, List.sum_cons]
          rw [ih sss pidxs _ _ h1 h2]
          ring_nf

/-- Modelled from the spec: a concrete stand-in for the external Poseidon
leaf hasher (a deterministic function of encoded identity and balance),
used only to evaluate the embedding on concrete inputs. -/
def hash_leaf_model : Fp → Fp → Fp := fun a b => a * 65536 + b + 3

/-- Modelled from the spec: a concrete stand-in for the external Poseidon
middle-node hasher (a deterministic function of left hash, right hash and
combined balance), used only to evaluate the embedding on concrete
inputs. -/
def hash_mid_model : Fp → Fp → Fp → Fp := fun a b c => a * 16777216 + b * 65536 + c + 7

/-- Replace every path indicator by its 0/1 normal form (0 stays the
left-child indicator, any other value becomes the right-child indicator 1). -/
def normalize_indices (p : MerkleProof) : MerkleProof :=
  { entry := p.entry
    root_hash := p.root_hash
    sibling_hashes := p.sibling_hashes
    sibling_sums := p.sibling_sums
    path_indices := p.path_indices.map fun x => if x = 0 then 0 else 1 }

lemma verify_levels_normalize (hashMid : Fp → Fp → Fp → Fp) :
    ∀ (shs sss pidxs : List Fp) (node : Node) (balance : Fp),
      verify_levels hashMid shs sss (pidxs.map fun x => if x = 0 then (0 : Fp) else 1)
          node balance =
        verify_levels hashMid shs sss pidxs node balance := by
  intro shs
  induction shs with
  | nil => intro sss pidxs node balance; rfl
  | cons sh shs ih =>
      intro sss pidxs node balance
      cases sss with
      | nil => rfl
      | cons ss sss =>
        cases pidxs with
        | nil => rfl
        | cons pidx pidxs =>
          simp only [List.map_cons, verify_levels]
          by_cases hp : pidx = 0
          · simp [hp, ih]
          · have h1 : (1 : Fp) ≠ 0 := by decide
            simp [hp, h1, ih]

/-- A concrete valid depth-1 Merkle proof (proven node on the left),
used to witness the verification theorems. -/
def valid_merkle_proof : MerkleProof :=
  { entry := { identity := 1, balance := 10 }
    root_hash := hash_mid_model (hash_leaf_model 1 10) 5 30
    sibling_hashes := [5]
    sibling_sums := [20]
    path_indices := [0] }

/-- A concrete valid depth-1 Merkle proof (proven node on the right),
used to witness the placement theorem. -/
def valid_merkle_proof_right : MerkleProof :=
  { entry := { identity := 1, balance := 10 }
    root_hash := hash_mid_model 5 (hash_leaf_model 1 10) 30
    sibling_hashes := [5]
    sibling_sums := [20]
    path_indices := [1] }

/-- A depth-0 Merkle proof whose root is the leaf hash itself. -/
def depth_zero_merkle_proof : MerkleProof :=
  { entry := { identity := 1, balance := 10 }
    root_hash := hash_leaf_model 1 10
    sibling_hashes := []
    sibling_sums := []
    path_indices := [] }

/-- A Merkle proof with one sibling hash but empty sibling sums and path
indicators: on it the source indexes `sibling_sums[0]` out of bounds. -/
def short_sums_merkle_proof : MerkleProof :=
  { entry := { identity := 1, balance := 10 }
    root_hash := 0
    sibling_hashes := [5]
    sibling_sums := []
    path_indices := [] }

/-- A Merkle proof carrying the out-of-range path indicator 2 (neither the
left-child indicator 0 nor the right-child indicator 1) which nevertheless
reconstructs the root, with the proven node on the right. -/
def out_of_range_indicator_proof : MerkleProof :=
  { entry := { identity := 1, balance := 10 }
    root_hash := hash_mid_model 5 (hash_leaf_model 1 10) 30
    sibling_hashes := [5]
    sibling_sums := [20]
    path_indices := [2] }

/-- C2: for every Merkle proof whose three sequences have equal length,
`verify_proof` returns true iff the hash of the node obtained by folding
the leaf computed from the entry up the path equals the root hash, and the
FieldEncoding of the entry's balance plus the sum of all sibling balances
equals the final folded node's recorded balance. -/
theorem merkle_verify_true_iff (hashLeaf : Fp → Fp → Fp) (hashMid : Fp → Fp → Fp → Fp)
    (p : MerkleProof)
    (h1 : p.sibling_sums.length = p.sibling_hashes.length)
    (h2 : p.path_indices.length = p.sibling_hashes.length) :
    verify_proof hashLeaf hashMid p = some true ↔
      ((fold_path hashMid (zip3 p.sibling_hashes p.sibling_sums p.path_indices)
          (compute_leaf hashLeaf p.entry)).hash = p.root_hash ∧
       big_int_to_fp p.entry.balance + p.sibling_sums.sum =
         (fold_path hashMid (zip3 p.sibling_hashes p.sibling_sums p.path_indices)
           (compute_leaf hashLeaf p.entry)).balance) := by
  unfold verify_proof
  rw [verify_levels_eq_fold hashMid p.sibling_hashes p.sibling_sums p.path_indices
      (compute_leaf hashLeaf p.entry) (big_int_to_fp p.entry.balance) h1 h2]
  simp only [Option.map_some', Option.some.injEq, Bool.and_eq_true, beq_iff_eq]
  exact ⟨fun h => ⟨h.1.symm, h.2⟩, fun h => ⟨h.1.symm, h.2⟩⟩

/-- Witness for C2 on a concrete valid depth-1 proof. -/
theorem merkle_verify_true_iff_witness :
    valid_merkle_proof.sibling_sums.length = valid_merkle_proof.sibling_hashes.length ∧
    valid_merkle_proof.path_indices.length = valid_merkle_proof.sibling_hashes.length ∧
    (verify_proof hash_leaf_model hash_mid_model valid_merkle_proof = some true ↔
      ((fold_path hash_mid_model
          (zip3 valid_merkle_proof.sibling_hashes valid_merkle_proof.sibling_sums
            valid_merkle_proof.path_indices)
          (compute_leaf hash_leaf_model valid_merkle_proof.entry)).hash =
            valid_merkle_proof.root_hash ∧
       big_int_to_fp valid_merkle_proof.entry.balance +
           valid_merkle_proof.sibling_sums.sum =
         (fold_path hash_mid_model
           (zip3 valid_merkle_proof.sibling_hashes valid_merkle_proof.sibling_sums
             valid_merkle_proof.path_indices)
           (compute_leaf hash_leaf_model valid_merkle_proof.entry)).balance)) :=
  ⟨rfl, rfl,
    merkle_verify_true_iff hash_leaf_model hash_mid_model valid_merkle_proof rfl rfl⟩

/-- C6: `verify_proof` recomputes the root by folding the leaf up the
path, and at every level the proven node is placed as the left child of
the new middle node exactly when the path indicator is the left-child
indicator 0, otherwise as the right child: the indicator names the proven
node's side. -/
theorem merkle_indicator_places_proven_node (hashLeaf : Fp → Fp → Fp)
    (hashMid : Fp → Fp → Fp → Fp) (p : MerkleProof)
    (h1 : p.sibling_sums.length = p.sibling_hashes.length)
    (h2 : p.path_indices.length = p.sibling_hashes.length) :
    verify_proof hashLeaf hashMid p =
      some ((p.root_hash ==
          (fold_path hashMid (zip3 p.sibling_hashes p.sibling_sums p.path_indices)
            (compute_leaf hashLeaf p.entry)).hash) &&
        (big_int_to_fp p.entry.balance + p.sibling_sums.sum ==
          (fold_path hashMid (zip3 p.sibling_hashes p.sibling_sums p.path_indices)
            (compute_leaf hashLeaf p.entry)).balance)) ∧
    (∀ (sh ss pidx : Fp) (rest : List (Fp × Fp × Fp)) (node : Node),
      fold_path hashMid ((sh, ss, pidx) :: rest) node =
        fold_path hashMid rest
          (if pidx = 0 then create_middle_node hashMid node { hash := sh, balance := ss }
           else create_middle_node hashMid { hash := sh, balance := ss } node)) := by
  constructor
  · unfold verify_proof
    rw [verify_levels_eq_fold hashMid p.sibling_hashes p.sibling_sums p.path_indices
        (compute_leaf hashLeaf p.entry) (big_int_to_fp p.entry.balance) h1 h2]
    rfl
  · intro sh ss pidx rest node
    rfl

/-- Witness for C6 on a concrete valid depth-1 proof whose indicator is 1
(proven node on the right). -/
theorem merkle_indicator_places_proven_node_witness :
    valid_merkle_proof_right.sibling_sums.length =
        valid_merkle_proof_right.sibling_hashes.length ∧
    valid_merkle_proof_right.path_indices.length =
        valid_merkle_proof_right.sibling_hashes.length ∧
    (verify_proof hash_leaf_model hash_mid_model valid_merkle_proof_right =
      some ((valid_merkle_proof_right.root_hash ==
          (fold_path hash_mid_model
            (zip3 valid_merkle_proof_right.sibling_hashes
              valid_merkle_proof_right.sibling_sums
              valid_merkle_proof_right.path_indices)
            (compute_leaf hash_leaf_model valid_merkle_proof_right.entry)).hash) &&
        (big_int_to_fp valid_merkle_proof_right.entry.balance +
            valid_merkle_proof_right.sibling_sums.sum ==
          (fold_path hash_mid_model
            (zip3 valid_merkle_proof_right.sibling_hashes
              valid_merkle_proof_right.sibling_sums
              valid_merkle_proof_right.path_indices)
            (compute_leaf hash_leaf_model valid_merkle_proof_right.entry)).balance)) ∧
    (∀ (sh ss pidx : Fp) (rest : List (Fp × Fp × Fp)) (node : Node),
      fold_path hash_mid_model ((sh, ss, pidx) :: rest) node =
        fold_path hash_mid_model rest
          (if pidx = 0 then create_middle_node hash_mid_model node { hash := sh, balance := ss }
           else create_middle_node hash_mid_model { hash := sh, balance := ss } node))) :=
  ⟨rfl, rfl,
    merkle_indicator_places_proven_node hash_leaf_model hash_mid_model
      valid_merkle_proof_right rfl rfl⟩

/-- C10: for every Merkle proof whose sibling-hash sequence is empty,
`verify_proof` returns true iff the root hash equals the hash of the leaf
computed from the entry and the FieldEncoding of the entry's balance
equals that leaf's recorded balance. -/
theorem merkle_verify_depth_zero (hashLeaf : Fp → Fp → Fp) (hashMid : Fp → Fp → Fp → Fp)
    (p : MerkleProof) (h : p.sibling_hashes = []) :
    verify_proof hashLeaf hashMid p = some true ↔
      (p.root_hash = (compute_leaf hashLeaf p.entry).hash ∧
       big_int_to_fp p.entry.balance = (compute_leaf hashLeaf p.entry).balance) := by
  unfold verify_proof
  rw [h]
  simp only [verify_levels, Option.map_some', Option.some.injEq, Bool.and_eq_true,
    beq_iff_eq]

/-- Witness for C10 on a concrete path-less proof. -/
theorem merkle_verify_depth_zero_witness :
    depth_zero_merkle_proof.sibling_hashes = [] ∧
    (verify_proof hash_leaf_model hash_mid_model depth_zero_merkle_proof = some true ↔
      (depth_zero_merkle_proof.root_hash =
          (compute_leaf hash_leaf_model depth_zero_merkle_proof.entry).hash ∧
       big_int_to_fp depth_zero_merkle_proof.entry.balance =
          (compute_leaf hash_leaf_model depth_zero_merkle_proof.entry).balance)) :=
  ⟨rfl,
    merkle_verify_depth_zero hash_leaf_model hash_mid_model depth_zero_merkle_proof rfl⟩

/-- C3 (failing input): on a proof whose sibling-sum sequence is shorter
than its sibling-hash sequence, the source's `proof.sibling_sums[i]` is an
out-of-bounds access and the call panics (`none`) instead of returning a
boolean. -/
theorem merkle_verify_short_sums_panics :
    verify_proof hash_leaf_model hash_mid_model short_sums_merkle_proof = none := by
  decide

/-- C7 (counterexample): a proof carrying the out-of-range path indicator
2 at level 0 is not rejected: `verify_proof` accepts it as valid. -/
theorem out_of_range_indicator_accepted :
    verify_proof hash_leaf_model hash_mid_model out_of_range_indicator_proof =
      some true := by
  decide

/-- C7 (amended): `verify_proof` compares each path indicator only against
the left-child indicator 0, so every nonzero indicator, in or out of
range, acts exactly as the right-child indicator 1: normalizing all
indicators to 0/1 leaves the result unchanged. -/
theorem nonzero_indicator_acts_as_right (hashLeaf : Fp → Fp → Fp)
    (hashMid : Fp → Fp → Fp → Fp) (p : MerkleProof) :
    verify_proof hashLeaf hashMid (normalize_indices p) =
      verify_proof hashLeaf hashMid p := by
  unfold verify_proof normalize_indices
  exact congrArg _ (verify_levels_normalize hashMid p.sibling_hashes p.sibling_sums
    p.path_indices (compute_leaf hashLeaf p.entry) (big_int_to_fp p.entry.balance))

/-- The backend `Entry<N_CURRENCIES>`: a username (as big unsigned
integer) and one balance per currency. -/
structure UserEntry where
  username : ℕ
  balances : List ℕ
deriving DecidableEq, Repr

/-- `KZGInclusionProof` (round.rs, lines 25-29): public inputs (256-bit
words, modelled as naturals) and the proof calldata byte string (each
entry a byte value). -/
structure KZGInclusionProof where
  public_inputs : List ℕ
  proof_calldata : List ℕ
deriving DecidableEq, Repr

/-- The 32-byte little-endian canonical encoding of a base-field element:
halo2's `Fq::to_bytes`. -/
def fq_to_bytes (x : Fq) : List ℕ :=
  (List.range 32).map fun i => x.val / 256 ^ i % 256

/-- Embedding of `Snapshot<N_CURRENCIES, N_POINTS, N_USERS>` together with
the external collaborators its proof generation calls. `P` is the type of
advice polynomials, `C` of KZG commitments, `G` of (projective) curve
points. The fields `commit_kzg`, `create_naive_kzg_proof`,
`verify_kzg_proof` and `to_affine` are modelled from the spec: they stand
for the `amortized_kzg` functions and the curve conversion (outside
`src/`), with the trusted-setup parameters already applied; `omega` is the
proving domain's generator `vk.get_domain().get_omega()`. -/
structure Snapshot (P C G : Type) where
  n_currencies : ℕ
  omega : Fp
  advice_polys : List P
  entries : List UserEntry
  commit_kzg : P → C
  create_naive_kzg_proof : P → Fp → Fp → G
  verify_kzg_proof : C → G → Fp → Fp → Bool
  to_affine : G → Fq × Fq

/-- The claimed value `z` computed for one column (round.rs, lines
173-180): FieldEncoding of the username for column 0, of
`balances[column_index - 1]` for columns at least 1. `none` models the
panic of `entries.get(user_index).unwrap()` or
`user_balances.get(column_index - 1).unwrap()`. -/
def column_z (entries : List UserEntry) (user_index c : ℕ) : Option Fp :=
  entries[user_index]?.bind fun user_entry =>
    if c = 0 then some (big_uint_to_fp user_entry.username)
    else (user_entry.balances[c - 1]?).map big_uint_to_fp

/-- The per-column loop body of `generate_proof_of_inclusion` (round.rs,
lines 167-204), iterated over the remaining column indices. Each step
fetches the column's advice polynomial, commits, computes the challenge
`omega ^ user_index` and the claimed value, creates the opening proof,
self-verifies it (a failed `assert!` is a panic, `none`), and serializes
the affine coordinates big-endian (reversed little-endian bytes). -/
def prove_columns {P C G : Type} (s : Snapshot P C G) (user_index : ℕ)
    (entries : List UserEntry) : List ℕ → Option (List (List ℕ))
  | [] => some []
  | c :: cs =>
    s.advice_polys[c]?.bind fun f_poly =>
      let kzg_commitment := s.commit_kzg f_poly
      let challenge := s.omega ^ user_index
      (column_z entries user_index c).bind fun z =>
        let kzg_proof := s.create_naive_kzg_proof f_poly challenge z
        if s.verify_kzg_proof kzg_commitment kzg_proof challenge z then
          (prove_columns s user_index entries cs).map fun rest =>
            ((fq_to_bytes (s.to_affine kzg_proof).1).reverse ++
              (fq_to_bytes (s.to_affine kzg_proof).2).reverse) :: rest
        else none

/-- Embedding of `Snapshot::generate_proof_of_inclusion` (round.rs, lines
154-210): run the per-column loop over columns `0..N_CURRENCIES + 1`,
concatenate the per-column buffers and return empty public inputs.
`none` models a panic. -/
def generate_proof_of_inclusion {P C G : Type} (s : Snapshot P C G)
    (user_index : ℕ) (entries : List UserEntry) : Option KZGInclusionProof :=
  (prove_columns s user_index entries (List.range (s.n_currencies + 1))).map
    fun opening_proofs =>
      { public_inputs := [], proof_calldata := opening_proofs.flatten }

/-- Embedding of `Round::get_proof_of_inclusion` (round.rs, lines
96-105): it delegates to the snapshot with the snapshot's own entries and
calls `.unwrap()` on the result, so a panic below propagates and no typed
error is ever produced. -/
def get_proof_of_inclusion {P C G : Type} (s : Snapshot P C G)
    (user_index : ℕ) : Option KZGInclusionProof :=
  generate_proof_of_inclusion s user_index s.entries

/-- Big-endian serialization of an affine point: x bytes reversed followed
by y bytes reversed. -/
def point_calldata (a : Fq × Fq) : List ℕ :=
  (fq_to_bytes a.1).reverse ++ (fq_to_bytes a.2).reverse

/-- Repackaging of one column's work: the bytes `prove_columns` emits for
column `c`, or `none` if that column panics. -/
def column_bytes {P C G : Type} (s : Snapshot P C G) (user_index : ℕ)
    (entries : List UserEntry) (c : ℕ) : Option (List ℕ) :=
  s.advice_polys[c]?.bind fun f_poly =>
    (column_z entries user_index c).bind fun z =>
      if s.verify_kzg_proof (s.commit_kzg f_poly)
          (s.create_naive_kzg_proof f_poly (s.omega ^ user_index) z)
          (s.omega ^ user_index) z then
        some (point_calldata
          (s.to_affine (s.create_naive_kzg_proof f_poly (s.omega ^ user_index) z)))
      else none

lemma prove_columns_cons {P C G : Type} (s : Snapshot P C G) (user_index : ℕ)
    (entries : List UserEntry) (c : ℕ) (cs : List ℕ) :
    prove_columns s user_index entries (c :: cs) =
      (column_bytes s user_index entries c).bind fun b =>
        (prove_columns s user_index entries cs).map fun rest => b :: rest := by
  cases hp : s.advice_polys[c]? with
  | none => simp [prove_columns, column_bytes, hp]
  | some f_poly =>
    cases hz : column_z entries user_index c with
    | none => simp [prove_columns, column_bytes, hp, hz]
    | some z =>
      by_cases hv : s.verify_kzg_proof (s.commit_kzg f_poly)
          (s.create_naive_kzg_proof f_poly (s.omega ^ user_index) z)
          (s.omega ^ user_index) z
      · simp [prove_columns, column_bytes, point_calldata, hp, hz, hv]
      · simp [prove_columns, column_bytes, hp, hz, hv]

lemma prove_columns_some {P C G : Type} (s : Snapshot P C G) (user_index : ℕ)
    (entries : List UserEntry) :
    ∀ (cs : List ℕ) (bufs : List (List ℕ)),
      prove_columns s user_index entries cs = some bufs →
      (∀ c ∈ cs, ∃ b, column_bytes s user_index entries c = some b) ∧
      bufs = cs.map fun c => (column_bytes s user_index entries c).getD [] := by
  intro cs
  induction cs with
  | nil =>
      intro bufs h
      simp only [prove_columns, Option.some.injEq] at h
      subst h
      exact ⟨fun c hc => absurd hc (List.not_mem_nil c), rfl⟩
  | cons c cs ih =>
      intro bufs h
      rw [prove_columns_cons] at h
      cases hb : column_bytes s user_index entries c with
      | none => rw [hb] at h; cases h
      | some b =>
        rw [hb] at h
        simp only [Option.some_bind] at h
        cases hr : prove_columns s user_index entries cs with
        | none => rw [hr] at h; cases h
        | some rest =>
          rw [hr] at h
          simp only [Option.map_some', Option.some.injEq] at h
          subst h
          obtain ⟨hall, hmap⟩ := ih rest hr
          refine ⟨?_, ?_⟩
          · intro c' hc'
            cases hc' with
            | head => exact ⟨b, hb⟩
            | tail _ htl => exact hall c' htl
          · simp only [List.map_cons, hb, Option.getD_some, hmap]

lemma column_bytes_some_elim {P C G : Type} (s : Snapshot P C G) (user_index : ℕ)
    (entries : List UserEntry) (c : ℕ) (b : List ℕ)
    (h : column_bytes s user_index entries c = some b) :
    ∃ f_poly z, s.advice_polys[c]? = some f_poly ∧
      column_z entries user_index c = some z ∧
      s.verify_kzg_proof (s.commit_kzg f_poly)
        (s.create_naive_kzg_proof f_poly (s.omega ^ user_index) z)
        (s.omega ^ user_index) z = true ∧
      b = point_calldata
        (s.to_affine (s.create_naive_kzg_proof f_poly (s.omega ^ user_index) z)) := by
  unfold column_bytes at h
  cases hp : s.advice_polys[c]? with
  | none => rw [hp] at h; cases h
  | some f_poly =>
    rw [hp] at h
    simp only [Option.some_bind] at h
    cases hz : column_z entries user_index c with
    | none => rw [hz] at h; cases h
    | some z =>
      rw [hz] at h
      simp only [Option.some_bind] at h
      split at h
      · cases h
        exact ⟨f_poly, z, rfl, rfl, by assumption, rfl⟩
      · cases h

lemma column_z_some_elim (entries : List UserEntry) (user_index c : ℕ) (z : Fp)
    (h : column_z entries user_index c = some z) :
    ∃ user_entry, entries[user_index]? = some user_entry ∧
      (c = 0 → z = big_uint_to_fp user_entry.username) ∧
      (c ≠ 0 → ∃ b, user_entry.balances[c - 1]? = some b ∧ z = big_uint_to_fp b) := by
  unfold column_z at h
  cases he : entries[user_index]? with
  | none => rw [he] at h; cases h
  | some user_entry =>
    rw [he] at h
    simp only [Option.some_bind] at h
    refine ⟨user_entry, rfl, ?_, ?_⟩
    · intro hc
      rw [if_pos hc] at h
      cases h
      rfl
    · intro hc
      rw [if_neg hc] at h
      cases hb : user_entry.balances[c - 1]? with
      | none => rw [hb] at h; cases h
      | some b =>
        rw [hb] at h
        cases h
        exact ⟨b, rfl, rfl⟩

/-- C1: whenever `generate_proof_of_inclusion` succeeds, the opening for
every column `c` in `0..N_CURRENCIES + 1` is created at the evaluation
point `omega ^ user_index` (the proving domain's generator raised to the
user index) and claims the value `z` given by the FieldEncoding of the
entry's username for column 0 and of the entry's balance at position
`c - 1` for columns at least 1. -/
theorem opening_uses_domain_point_and_entry_value {P C G : Type}
    (s : Snapshot P C G) (user_index : ℕ) (entries : List UserEntry)
    (pf : KZGInclusionProof)
    (h : generate_proof_of_inclusion s user_index entries = some pf) :
    ∀ c < s.n_currencies + 1, ∃ user_entry z,
      entries[user_index]? = some user_entry ∧
      column_z entries user_index c = some z ∧
      (c = 0 → z = big_uint_to_fp user_entry.username) ∧
      (c ≠ 0 → ∃ b, user_entry.balances[c - 1]? = some b ∧ z = big_uint_to_fp b) ∧
      ∃ f_poly, s.advice_polys[c]? = some f_poly ∧
        column_bytes s user_index entries c =
          some (point_calldata (s.to_affine
            (s.create_naive_kzg_proof f_poly (s.omega ^ user_index) z))) := by
  intro c hc
  unfold generate_proof_of_inclusion at h
  cases hr : prove_columns s user_index entries (List.range (s.n_currencies + 1)) with
  | none => rw [hr] at h; cases h
  | some bufs =>
    obtain ⟨hall, _⟩ := prove_columns_some s user_index entries _ bufs hr
    obtain ⟨b, hb⟩ := hall c (List.mem_range.mpr hc)
    obtain ⟨f_poly, z, hf, hz, hv, hbv⟩ :=
      column_bytes_some_elim s user_index entries c b hb
    obtain ⟨user_entry, he, h0, h1⟩ := column_z_some_elim entries user_index c z hz
    exact ⟨user_entry, z, he, hz, h0, h1, f_poly, hf, by rw [hb, hbv]⟩

/-- C5: whenever `generate_proof_of_inclusion` succeeds, the public inputs
are empty and the proof calldata is the concatenation, in column order
from 0 to `N_CURRENCIES`, of the opening proof point's affine x coordinate
followed by its y coordinate, each serialized as the byte-reversal of the
32-byte little-endian field encoding (hence big-endian). -/
theorem proof_calldata_is_big_endian_coordinates {P C G : Type}
    (s : Snapshot P C G) (user_index : ℕ) (entries : List UserEntry)
    (pf : KZGInclusionProof)
    (h : generate_proof_of_inclusion s user_index entries = some pf) :
    pf.public_inputs = [] ∧
    (∀ c < s.n_currencies + 1, ∃ f_poly z,
      s.advice_polys[c]? = some f_poly ∧
      column_z entries user_index c = some z ∧
      column_bytes s user_index entries c =
        some ((fq_to_bytes (s.to_affine
            (s.create_naive_kzg_proof f_poly (s.omega ^ user_index) z)).1).reverse ++
          (fq_to_bytes (s.to_affine
            (s.create_naive_kzg_proof f_poly (s.omega ^ user_index) z)).2).reverse)) ∧
    pf.proof_calldata =
      ((List.range (s.n_currencies + 1)).map
        fun c => (column_bytes s user_index entries c).getD []).flatten := by
  unfold generate_proof_of_inclusion at h
  cases hr : prove_columns s user_index entries (List.range (s.n_currencies + 1)) with
  | none => rw [hr] at h; cases h
  | some bufs =>
    rw [hr] at h
    simp only [Option.map_some', Option.some.injEq] at h
    subst h
    obtain ⟨hall, hmap⟩ := prove_columns_some s user_index entries _ bufs hr
    refine ⟨rfl, ?_, ?_⟩
    · intro c hc
      obtain ⟨b, hb⟩ := hall c (List.mem_range.mpr hc)
      obtain ⟨f_poly, z, hf, hz, hv, hbv⟩ :=
        column_bytes_some_elim s user_index entries c b hb
      exact ⟨f_poly, z, hf, hz, by rw [hb, hbv]; rfl⟩
    · show bufs.flatten = _
      rw [hmap]

/-- C9: proof generation draws no randomness, so two calls of
`generate_proof_of_inclusion` on identical snapshot state, user index and
entry set return identical (hence byte-identical) proof output. -/
theorem generate_proof_of_inclusion_deterministic {P C G : Type}
    (s₁ s₂ : Snapshot P C G) (u₁ u₂ : ℕ) (e₁ e₂ : List UserEntry)
    (hs : s₁ = s₂) (hu : u₁ = u₂) (he : e₁ = e₂) :
    generate_proof_of_inclusion s₁ u₁ e₁ = generate_proof_of_inclusion s₂ u₂ e₂ := by
  subst hs; subst hu; subst he; rfl

/-- A concrete snapshot instantiation (one currency, two advice columns,
one entry, trivially succeeding external collaborators) used to evaluate
the embedding of proof generation. -/
def snapshot_w : Snapshot Unit Unit Unit :=
  { n_currencies := 1
    omega := 1
    advice_polys := [(), ()]
    entries := [{ username := 7, balances := [10] }]
    commit_kzg := fun _ => ()
    create_naive_kzg_proof := fun _ _ _ => ()
    verify_kzg_proof := fun _ _ _ _ => true
    to_affine := fun _ => (2, 3) }

/-- Witness for C1 at a concrete in-range user index. -/
theorem opening_uses_domain_point_and_entry_value_witness :
    ∃ pf, generate_proof_of_inclusion snapshot_w 0 snapshot_w.entries = some pf ∧
      ∀ c < snapshot_w.n_currencies + 1, ∃ user_entry z,
        snapshot_w.entries[(0 : ℕ)]? = some user_entry ∧
        column_z snapshot_w.entries 0 c = some z ∧
        (c = 0 → z = big_uint_to_fp user_entry.username) ∧
        (c ≠ 0 → ∃ b, user_entry.balances[c - 1]? = some b ∧ z = big_uint_to_fp b) ∧
        ∃ f_poly, snapshot_w.advice_polys[c]? = some f_poly ∧
          column_bytes snapshot_w 0 snapshot_w.entries c =
            some (point_calldata (snapshot_w.to_affine
              (snapshot_w.create_naive_kzg_proof f_poly (snapshot_w.omega ^ 0) z))) :=
  ⟨_, rfl,
    opening_uses_domain_point_and_entry_value snapshot_w 0 snapshot_w.entries _ rfl⟩

/-- Witness for C5 at a concrete in-range user index. -/
theorem proof_calldata_is_big_endian_coordinates_witness :
    ∃ pf, generate_proof_of_inclusion snapshot_w 0 snapshot_w.entries = some pf ∧
      pf.public_inputs = [] ∧
      (∀ c < snapshot_w.n_currencies + 1, ∃ f_poly z,
        snapshot_w.advice_polys[c]? = some f_poly ∧
        column_z snapshot_w.entries 0 c = some z ∧
        column_bytes snapshot_w 0 snapshot_w.entries c =
          some ((fq_to_bytes (snapshot_w.to_affine
              (snapshot_w.create_naive_kzg_proof f_poly (snapshot_w.omega ^ 0) z)).1).reverse ++
            (fq_to_bytes (snapshot_w.to_affine
              (snapshot_w.create_naive_kzg_proof f_poly (snapshot_w.omega ^ 0) z)).2).reverse)) ∧
      pf.proof_calldata =
        ((List.range (snapshot_w.n_currencies + 1)).map
          fun c => (column_bytes snapshot_w 0 snapshot_w.entries c).getD []).flatten :=
  ⟨_, rfl,
    proof_calldata_is_big_endian_coordinates snapshot_w 0 snapshot_w.entries _ rfl⟩

/-- Witness for C9 at concrete identical inputs. -/
theorem generate_proof_of_inclusion_deterministic_witness :
    generate_proof_of_inclusion snapshot_w 0 snapshot_w.entries =
      generate_proof_of_inclusion snapshot_w 0 snapshot_w.entries :=
  generate_proof_of_inclusion_deterministic snapshot_w snapshot_w 0 0
    snapshot_w.entries snapshot_w.entries rfl rfl rfl

/-- C4 (failing input): requesting an inclusion proof for user index 1 in
a snapshot with a single entry makes `entries.get(user_index).unwrap()`
panic, modelled as `none`; `Round::get_proof_of_inclusion`, which unwraps
the delegated result, panics identically. No typed error is returned. -/
theorem out_of_range_user_index_panics :
    generate_proof_of_inclusion snapshot_w 1 snapshot_w.entries = none ∧
    get_proof_of_inclusion snapshot_w 1 = none := by
  exact ⟨rfl, rfl⟩

/-- Embedding of Rust `params_path.split('-')`: the list of
minus-delimited segments (always at least one, possibly empty,
segment). -/
def split_on_minus : List Char → List (List Char)
  | [] => [[]]
  | ch :: rest =>
    match split_on_minus rest with
    | [] => [[]]
    | seg :: segs =>
        if ch = '-' then [] :: seg :: segs else (ch :: seg) :: segs

def parse_u32_digits : List Char → ℕ → Option ℕ
  | [], acc => some acc
  | ch :: rest, acc =>
      if 48 ≤ ch.toNat ∧ ch.toNat ≤ 57 then
        parse_u32_digits rest (acc * 10 + (ch.toNat - 48))
      else none

/-- Embedding of Rust `str::parse::<u32>()`: an optional leading plus
sign, then at least one decimal digit and nothing else, with the value
within the u32 range; anything else is a parse error (`none`). -/
def parse_u32 (s : List Char) : Option ℕ :=
  let body := match s with
    | '+' :: rest => rest
    | other => other
  match body with
  | [] => none
  | _ :: _ =>
      (parse_u32_digits body 0).bind fun v =>
        if v < 4294967296 then some v else none

/-- Embedding of `Snapshot::new` (round.rs, lines 131-152), parameterized
by the external `generate_setup_artifacts` (modelled from the spec: an
external artifact generator for the domain-size exponent `k`, which may
fail; the source unwraps its result). The source splits `params_path` on
the minus sign, takes the last segment (`parts.last().unwrap()` cannot
panic since a split is never empty) and calls
`last_part.parse::<u32>().unwrap()`, so a malformed final segment is a
panic (`none`), never a typed error. -/
def snapshot_new {A T : Type} (gen_setup_artifacts : ℕ → Option T)
    (advice_polys : A) (entries : List UserEntry) (params_path : List Char) :
    Option (A × List UserEntry × T) :=
  (split_on_minus params_path).getLast?.bind fun last_part =>
    (parse_u32 last_part).bind fun k =>
      (gen_setup_artifacts k).map fun trusted_setup =>
        (advice_polys, entries, trusted_setup)

/-- C8 (failing input): on the identifier whose final minus-delimited
segment is not an unsigned integer, `Snapshot::new` panics (`none`)
instead of returning a typed construction error; on a well-formed
identifier the domain-size exponent is parsed from the final segment (11
here), confirming the parsing half of the claim. -/
theorem malformed_setup_identifier_panics :
    snapshot_new (fun k => some k) () ([] : List UserEntry)
        "ppot-rotated-abc".data = none ∧
    snapshot_new (fun k => some k) () ([] : List UserEntry)
        "hermez-raw-11".data = some ((), [], 11) := by
  exact ⟨rfl, rfl⟩
